import Mathlib

/-!
Verification of the markdown study-guide viewer.

The development shallowly embeds the core of the repository
(`src/components/MarkdownRenderer.tsx`, the search panel, the document
loader `documentLoader.ts` and the bookmark / notes state) as Lean
functions over `List Char` (JavaScript strings), and proves or refutes
the frozen specification claims about them.

Modelling conventions, used throughout:
 - a JavaScript string is a `List Char`; `text.split('\n')` is `splitLines`;
 - character classes of the JavaScript regexes are modelled on the ASCII
   range (the only range exercised by the bundled markdown sources):
   `\s` is `isWs`, `toLowerCase` is `Char.toLower`;
 - the regex metacharacter `.` (which excludes only `'\n'`) is modelled as
   "any character"; all line-level functions are applied to the output of
   `splitLines`, whose elements never contain `'\n'`, so the two agree on
   every input that actually occurs;
 - the regexes of the source are small and fixed, and each is translated
   into an explicit search that mirrors the JavaScript backtracking
   semantics (lazy `(.+?)` = shortest split that lets the rest match,
   greedy `\s*`/`[^}]+` = longest run).
-/

set_option maxHeartbeats 1000000

namespace StudyGuide

/-- ASCII whitespace: the characters of the JavaScript regex class `\s`
(and of `String.prototype.trim`) in the ASCII range. -/
def isWs (c : Char) : Bool :=
  c == ' ' || c == '\t' || c == '\n' || c == '\r' || c == '\x0b' || c == '\x0c'

/-- JavaScript `String.prototype.toLowerCase`, restricted to ASCII. -/
def lowerL (s : List Char) : List Char := s.map Char.toLower

/-- JavaScript `String.prototype.startsWith`. -/
def startsWithL (pre s : List Char) : Bool := s.take pre.length == pre

/-- JavaScript `String.prototype.trim` (ASCII whitespace). -/
def trimJS (s : List Char) : List Char :=
  ((s.dropWhile isWs).reverse.dropWhile isWs).reverse

/-- JavaScript `String.prototype.split` with a one-character separator:
`"a,b".split(',') = ["a","b"]`, `"".split(',') = [""]`,
`"a,".split(',') = ["a",""]`. -/
def splitOnChar (sep : Char) : List Char → List (List Char)
  | [] => [[]]
  | c :: cs =>
    if c == sep then [] :: splitOnChar sep cs
    else
      match splitOnChar sep cs with
      | [] => [[c]]
      | l :: ls => (c :: l) :: ls

/-- `text.split('\n')`, as used by the renderer, the section extractor and
the search matcher. -/
def splitLines (s : List Char) : List (List Char) := splitOnChar '\n' s

/-- Auxiliary scan for `indexOfSub`: first match position at offset `i` or
later. -/
def indexOfFrom (needle : List Char) : Nat → List Char → Option Nat
  | i, [] => if needle.isEmpty then some i else none
  | i, c :: cs =>
    if (c :: cs).take needle.length == needle then some i
    else indexOfFrom needle (i + 1) cs

/-- JavaScript `String.prototype.indexOf`, returning `none` for -1. -/
def indexOfSub (hay needle : List Char) : Option Nat := indexOfFrom needle 0 hay

/-- JavaScript `String.prototype.includes`. -/
def containsSub (hay needle : List Char) : Bool := (indexOfSub hay needle).isSome

/-- JavaScript `replace(/BAD+/g, '-')`: every maximal run of characters
satisfying `bad` is collapsed to a single `'-'`.  The boolean argument
records whether the scan is currently inside such a run. -/
def collapseRuns (bad : Char → Bool) : Bool → List Char → List Char
  | _, [] => []
  | inRun, c :: cs =>
    if bad c then
      if inRun then collapseRuns bad true cs
      else '-' :: collapseRuns bad true cs
    else c :: collapseRuns bad false cs

/-- Lower-case ASCII letter or digit: the class `[a-z0-9]`. -/
def isLowerAlnum (c : Char) : Bool :=
  ('a' ≤ c && c ≤ 'z') || ('0' ≤ c && c ≤ '9')

/-- Slug fallback of the Section Extractor (`documentLoader.ts`):
`title.toLowerCase().replace(/[^a-z0-9]+/g, '-')`. -/
def slugSections (title : List Char) : List Char :=
  collapseRuns (fun c => !isLowerAlnum c) false (lowerL title)

/-- Slug fallback of the Markdown Line Renderer and of the Search Matcher:
`title.toLowerCase().replace(/\s+/g, '-')`. -/
def slugHeading (title : List Char) : List Char :=
  collapseRuns isWs false (lowerL title)

/-- Match of the optional tail `\s+\{#(.+?)\}$` of the level-2 heading
regex `/^## (.+?)(?:\s+\{#(.+?)\})?$/` against the remainder `r` of a
line; returns the captured id.  `\s+` must be non-empty, the literal
`\x7b#` follows it, and the lazy `(.+?)\}` anchored at `$` captures
everything up to the final character, which must be `\x7d`. -/
def suffixIdMatch (r : List Char) : Option (List Char) :=
  if (r.takeWhile isWs).isEmpty then none
  else
    match r.dropWhile isWs with
    | '\x7b' :: '#' :: rest =>
      if rest.getLast? = some '\x7d' ∧ 2 ≤ rest.length then some rest.dropLast
      else none
    | _ => none

/-- The lazy search of `/^## (.+?)(?:\s+\{#(.+?)\})?$/` after the literal
`"## "`: the title grows one character at a time (first argument is the
reversed title so far); at each length the optional id tail is tried on
the rest, and an exhausted rest matches `$` with the tail absent. -/
def h2Split : List Char → List Char → Option (List Char × Option (List Char))
  | tRev, [] => if tRev.isEmpty then none else some (tRev.reverse, none)
  | tRev, c :: rest =>
    match suffixIdMatch rest with
    | some i => some ((c :: tRev).reverse, some i)
    | none => h2Split (c :: tRev) rest

/-- The `## ` branch of `parseMarkdown` in `MarkdownRenderer.tsx`:
`title = match?.[1] || line.slice(3)` and
`id = match?.[2] || title.toLowerCase().replace(/\s+/g, '-')`
(the captured groups are never empty, so the JavaScript falsiness checks
reduce to match success). -/
def rendererH2 (line : List Char) : List Char × List Char :=
  match h2Split [] (line.drop 3) with
  | some (t, some i) => (t, i)
  | some (t, none) => (t, slugHeading t)
  | none => (line.drop 3, slugHeading (line.drop 3))

/-- The header detection of the Search Matcher (`SearchPanel.tsx`):
`line.match(/^## (.+?)(?:\s+\{#(.+?)\})?$/)`, returning the new
current-section `(title, id)` on success. -/
def searchHeaderMatch (line : List Char) : Option (List Char × List Char) :=
  match line with
  | '#' :: '#' :: ' ' :: rest =>
    match h2Split [] rest with
    | some (t, some i) => some (t, i)
    | some (t, none) => some (t, slugHeading t)
    | none => none
  | _ => none

/-- `DocumentSection` of `documentLoader.ts`. -/
structure DocumentSection where
  id : List Char
  title : List Char
  level : Nat
deriving DecidableEq

/-- Whether a suffix of the trimmed heading line matches the whole of
`\s*\{#.*\}$`: optional whitespace, the literal `\x7b#`, anything, and a
final `\x7d` ending the line. -/
def matchesIdSuffix (s : List Char) : Bool :=
  match s.dropWhile isWs with
  | '\x7b' :: '#' :: rest => rest.getLast? == some '\x7d'
  | _ => false

/-- `title.replace(/\s*\{#.*\}$/, '')`: the replacement removes the
leftmost (and hence, being anchored at `$`, the rest-of-string) match. -/
def stripIdSuffix : List Char → List Char
  | [] => []
  | c :: cs => if matchesIdSuffix (c :: cs) then [] else c :: stripIdSuffix cs

/-- `trimmedLine.match(/\{#([^}]+)\}/)`: leftmost match of the unanchored
id pattern; the greedy `[^}]+` captures the run up to the next `\x7d`,
which must be non-empty and followed by a `\x7d`.  On failure at a
position the scan resumes one character later. -/
def findId : List Char → Option (List Char)
  | [] => none
  | c :: cs =>
    if c = '\x7b' then
      match cs with
      | '#' :: rest =>
        let grp := rest.takeWhile (fun d => d ≠ '\x7d')
        if 1 ≤ grp.length ∧ grp.length < rest.length then some grp
        else findId cs
      | _ => findId cs
    else findId cs

/-- One line of `parseMarkdownSections` (`documentLoader.ts`): a trimmed
line starting with `#` yields a section whose level is the length of the
leading `#` run, whose title strips `^#+\s*` and the `\s*\{#.*\}$`
suffix, and whose id is the explicit `\{#([^}]+)\}` capture or the slug
of the title. -/
def sectionOfLine (line : List Char) : Option DocumentSection :=
  let t := trimJS line
  if startsWithL ['#'] t then
    let level := (t.takeWhile (fun c => c == '#')).length
    let title := stripIdSuffix ((t.dropWhile (fun c => c == '#')).dropWhile isWs)
    let id :=
      match findId t with
      | some i => i
      | none => slugSections title
    some ⟨id, title, level⟩
  else none

/-- `parseMarkdownSections` of `documentLoader.ts`. -/
def parseMarkdownSections (content : List Char) : List DocumentSection :=
  (splitLines content).filterMap sectionOfLine

/-- The render blocks emitted by `parseMarkdown` in
`MarkdownRenderer.tsx`, with the textual payload each block carries. -/
inductive Block where
  | code (lang body : List Char)
  | h1 (title : List Char)
  | h2 (id title : List Char)
  | h3 (title : List Char)
  | defItem (term defn : List Char)
  | bullet (text : List Char)
  | hrule
  | caption (text : List Char)
  | para (text : List Char)
deriving DecidableEq

/-- The `\s*(.+)$` tail of the definition-item regex applied to the text
after `**:`: the greedy `\s*` takes the maximal whitespace prefix, backing
off one character when `(.+)` would otherwise be empty. -/
def defTail (tail : List Char) : List Char :=
  let w := tail.takeWhile isWs
  if w.length = tail.length then tail.drop (tail.length - 1)
  else tail.drop w.length

/-- The lazy term search of `/^- \*\*(.+?)\*\*:\s*(.+)$/` after the
literal `"- **"`: the term grows one character at a time until the
literal `**:` follows with a non-empty remainder. -/
def defSearch : List Char → List Char → Option (List Char × List Char)
  | _, [] => none
  | tRev, c :: rest =>
    if startsWithL ['*', '*', ':'] rest ∧ 3 < rest.length then
      some ((c :: tRev).reverse, defTail (rest.drop 3))
    else defSearch (c :: tRev) rest

/-- `line.match(/^- \*\*(.+?)\*\*:\s*(.+)$/)` of the renderer. -/
def defMatch (line : List Char) : Option (List Char × List Char) :=
  if startsWithL ("- **".data) line then defSearch [] (line.drop 4) else none

/-- The normal-state line classification of `parseMarkdown`
(`MarkdownRenderer.tsx`), one `else if` per source branch, in source
order.  A line starting `- **` that fails the definition-item regex emits
nothing (the source `if (match)` has no `else`). -/
def classify (line : List Char) : List Block :=
  if startsWithL ("# ".data) line then [Block.h1 (line.drop 2)]
  else if startsWithL ("## ".data) line then
    [Block.h2 (rendererH2 line).2 (rendererH2 line).1]
  else if startsWithL ("### ".data) line then [Block.h3 (line.drop 4)]
  else if startsWithL ("- **".data) line then
    match defMatch line with
    | some td => [Block.defItem td.1 td.2]
    | none => []
  else if startsWithL ("- ".data) line then [Block.bullet (line.drop 2)]
  else if trimJS line = "---".data then [Block.hrule]
  else if line.head? = some '*' ∧ line.getLast? = some '*' then
    [Block.caption (line.drop 1).dropLast]
  else if trimJS line ≠ [] then [Block.para line]
  else []

/-- The mutable scan state of `parseMarkdown`: `inCodeBlock`,
`codeBlockLanguage` and `currentCodeBlock`. -/
structure PState where
  inCodeBlock : Bool
  codeBlockLanguage : List Char
  currentCodeBlock : List Char
deriving DecidableEq

/-- One loop iteration of `parseMarkdown`: a line starting with three
backticks toggles the code-block state (closing flushes the buffer as one
code block and resets the state; opening records `line.slice(3)` as the
language); inside a code block the line is appended verbatim plus a
newline; otherwise the line is classified. -/
def step (st : PState) (line : List Char) : PState × List Block :=
  if startsWithL ("```".data) line then
    if st.inCodeBlock then
      (⟨false, [], []⟩, [Block.code st.codeBlockLanguage st.currentCodeBlock])
    else (⟨true, line.drop 3, []⟩, [])
  else if st.inCodeBlock then
    (⟨true, st.codeBlockLanguage, st.currentCodeBlock ++ line ++ ['\n']⟩, [])
  else (st, classify line)

/-- The full line loop of `parseMarkdown` from a given state.  An
unclosed code buffer at the end of input is discarded, as in the source. -/
def parseLines (st : PState) : List (List Char) → List Block
  | [] => []
  | l :: ls =>
    let r := step st l
    r.2 ++ parseLines r.1 ls

/-- `parseMarkdown` of `MarkdownRenderer.tsx` on a whole text. -/
def parseMarkdown (text : List Char) : List Block :=
  parseLines ⟨false, [], []⟩ (splitLines text)

/-- The body a code fence accumulates: each interior line followed by a
newline. -/
def codeJoin (interior : List (List Char)) : List Char :=
  interior.foldr (fun l acc => l ++ '\n' :: acc) []

/-- `SearchResult` of `SearchPanel.tsx`. -/
structure SearchResult where
  sectionId : List Char
  sectionTitle : List Char
  snippet : List Char
  line : Nat
deriving DecidableEq

/-- Fuel-indexed scan of
`snippet.replace(new RegExp('(' + q + ')', 'gi'), '<mark>$1</mark>')`:
a global, case-insensitive, left-to-right, non-overlapping replacement of
the query.  The query is interpolated into the regex unescaped; this
model treats it literally, which is exact whenever the query contains no
regex metacharacters.  The fuel (always instantiated with the length of
the scanned list, which never increases) only makes the recursion
structural. -/
def highlightGo (q : List Char) : Nat → List Char → List Char
  | 0, s => s
  | _ + 1, [] => []
  | fuel + 1, c :: cs =>
    if q ≠ [] ∧ lowerL ((c :: cs).take q.length) = lowerL q then
      "<mark>".data ++ (c :: cs).take q.length ++ "</mark>".data
        ++ highlightGo q fuel ((c :: cs).drop q.length)
    else c :: highlightGo q fuel cs

/-- The highlight replacement of the Search Matcher. -/
def highlight (q s : List Char) : List Char := highlightGo q s.length s

/-- The snippet construction of `searchResults` (`SearchPanel.tsx`) for a
match of the lowercased query at index `qi` of the lowercased line:
`slice(max(0, qi-30), min(len, qi+qlen+30))`, ellipses when clamped, then
the highlight replacement over the decorated snippet. -/
def mkSnippetSrc (q line : List Char) (qi : Nat) : List Char :=
  let stop := min line.length (qi + q.length + 30)
  let start := qi - 30
  let core := (line.drop start).take (stop - start)
  let s1 := if 0 < start then "...".data ++ core else core
  let s2 := if stop < line.length then s1 ++ "...".data else s1
  highlight q s2

/-- Modelled from the spec sentence: "extract a window of up to 30
characters before and 30 after the first occurrence (clamped to line
bounds), prefix/suffix with an ellipsis marker when clamped, and wrap
every ... occurrence of the query within that window in a highlight
marker" — with the wrapped occurrences being those of a left-to-right
non-overlapping case-insensitive scan (the amendment).  Kept distinct
from `mkSnippetSrc`, which follows the source; the refinement theorem
compares the two. -/
def mkSnippetSpec (q line : List Char) (qi : Nat) : List Char :=
  let wstart := if 30 ≤ qi then qi - 30 else 0
  let wstop := min (qi + q.length + 30) line.length
  let window := (line.drop wstart).take (wstop - wstart)
  (if wstart ≠ 0 then "...".data else [])
    ++ highlight q window
    ++ (if wstop < line.length then "...".data else [])

/-- The per-line match test and snippet of `searchResults`: `none` when
the lowercased line does not contain the lowercased query. -/
def snippetOfLine (q line : List Char) : Option (List Char) :=
  match indexOfSub (lowerL line) (lowerL q) with
  | some qi => some (mkSnippetSrc q line qi)
  | none => none

/-- The `lines.forEach` body of `searchResults`: a level-2 heading only
updates the current-section cursor `cur`; any other line containing the
query emits a result carrying the cursor and the 1-based line number. -/
def searchGo (q : List Char) :
    List (List Char) → Nat → List Char × List Char → List SearchResult
  | [], _, _ => []
  | l :: ls, idx, cur =>
    match searchHeaderMatch l with
    | some ti => searchGo q ls (idx + 1) (ti.2, ti.1)
    | none =>
      match snippetOfLine q l with
      | some sn => ⟨cur.1, cur.2, sn, idx + 1⟩ :: searchGo q ls (idx + 1) cur
      | none => searchGo q ls (idx + 1) cur

/-- `searchResults` of `SearchPanel.tsx`: empty for a whitespace-only
query, otherwise the scan from the synthetic `intro`/`Introduction`
cursor, capped by `slice(0, 20)`. -/
def searchResults (content q : List Char) : List SearchResult :=
  if (trimJS q).isEmpty then []
  else (searchGo q (splitLines content) 0 ("intro".data, "Introduction".data)).take 20

/-- `Document` of `documentLoader.ts`. -/
structure Document where
  title : List Char
  content : List Char
  sections : List DocumentSection
deriving DecidableEq

/-- Skip to just past the next newline (the next `^` position of a
multiline regex scan). -/
def nextLine : List Char → List Char
  | [] => []
  | '\n' :: cs => cs
  | _ :: cs => nextLine cs

/-- The `\s+(.+)$` tail of `/^#\s+(.+)$/m` against the text `r` after a
line-initial `#`.  The greedy `\s+` (which may cross newlines) takes the
maximal whitespace run; if nothing follows it, it backs off to let the
newline-free `(.+)` take the last whitespace character before the
trailing newlines, provided `\s+` stays non-empty. -/
def titleFrom (r : List Char) : Option (List Char) :=
  let w := r.takeWhile isWs
  let rem := r.drop w.length
  if w.isEmpty then none
  else if rem ≠ [] then some (rem.takeWhile (fun c => c ≠ '\n'))
  else
    let w2 := (w.reverse.dropWhile (fun c => c == '\n')).reverse
    match w2.getLast? with
    | some c => if 2 ≤ w2.length then some [c] else none
    | none => none

/-- Fuel-indexed scan of `content.match(/^#\s+(.+)$/m)` over the line
starts of the content (fuel is the content length, which bounds the
number of line starts). -/
def findDocTitleGo : Nat → List Char → Option (List Char)
  | 0, _ => none
  | _ + 1, [] => none
  | fuel + 1, '#' :: r =>
    (match titleFrom r with
     | some t => some t
     | none => findDocTitleGo fuel (nextLine ('#' :: r)))
  | fuel + 1, c :: cs => findDocTitleGo fuel (nextLine (c :: cs))

/-- `content.match(/^#\s+(.+)$/m)`, returning the captured title. -/
def findDocTitle (content : List Char) : Option (List Char) :=
  findDocTitleGo content.length content

/-- The fallback content built by `loadMarkdownContent` for a missing id. -/
def notFoundContent (contentId : List Char) : List Char :=
  "# Document Not Found\n\nThe requested document \"".data
    ++ contentId ++ "\" could not be loaded.".data

/-- `loadMarkdownContent` of `documentLoader.ts`.  The content map
(`readmes/index.ts`, a static data table) is a parameter; a missing id
makes the source `throw`, caught by the surrounding `try`/`catch` which
returns the placeholder document, so the embedding is total. -/
def loadMarkdownContent (contentMap : List Char → Option (List Char))
    (contentId : List Char) : Document :=
  match contentMap contentId with
  | some content =>
    { title := (findDocTitle content).getD ("Untitled Document".data)
      content := content
      sections := parseMarkdownSections content }
  | none =>
    { title := "Document Not Found".data
      content := notFoundContent contentId
      sections := [] }

/-- `toggleBookmark` of `App.tsx`: remove all occurrences when present,
append when absent (`prev.includes(sectionId)` is membership). -/
def toggleBookmark (sectionId : List Char) (prev : List (List Char)) :
    List (List Char) :=
  if sectionId ∈ prev then prev.filter (fun x => x ≠ sectionId)
  else prev ++ [sectionId]

/-- `Note` of `NotesPanel.tsx`.  The source field `section` is a Lean
keyword and is called `sectionName` here; the two `Date` fields are
modelled by a creation instant passed in by the caller. -/
structure Note where
  id : List Char
  title : List Char
  content : List Char
  sectionName : List Char
  tags : List (List Char)
  createdAt : Nat
  updatedAt : Nat
deriving DecidableEq

/-- The `newNote` form state of `NotesPanel.tsx` (`tags` is the raw
comma-separated input string). -/
structure NewNoteForm where
  title : List Char
  content : List Char
  sectionName : List Char
  tags : List Char
deriving DecidableEq

/-- `newNote.tags.split(',').map(tag => tag.trim()).filter(Boolean)`. -/
def parseTags (s : List Char) : List (List Char) :=
  ((splitOnChar ',' s).map trimJS).filter (fun t => !t.isEmpty)

/-- `addNote` of `NotesPanel.tsx`.  `nowId` models `Date.now().toString()`
and `now` the `new Date()` instants; `newNote.section || 'General'` is
the JavaScript empty-string falsiness check. -/
def addNote (nowId : List Char) (now : Nat) (n : NewNoteForm)
    (notes : List Note) : List Note :=
  if !(trimJS n.title).isEmpty && !(trimJS n.content).isEmpty then
    { id := nowId
      title := n.title
      content := n.content
      sectionName := if n.sectionName.isEmpty then "General".data else n.sectionName
      tags := parseTags n.tags
      createdAt := now
      updatedAt := now } :: notes
  else notes

/-- The heading line of the form `## TITLE \x7b#ID\x7d` with a single
space before the id suffix; used to state the round-trip claim. -/
def headingLine (T I : List Char) : List Char :=
  '#' :: '#' :: ' ' :: (T ++ (' ' :: '\x7b' :: '#' :: (I ++ ['\x7d'])))

/-- All (possibly overlapping) case-insensitive occurrence positions of
`q` in `s`; used to state what "every occurrence" means in the claims. -/
def countOcc (q s : List Char) : Nat :=
  ((List.range s.length).filter
    (fun i => decide (lowerL ((s.drop i).take q.length) = lowerL q))).length

/-! ## General lemmas about the string helpers -/

theorem head?_dropWhile_false {p : Char → Bool} :
    ∀ {l : List Char} {c : Char}, (l.dropWhile p).head? = some c → p c = false := by
  intro l
  induction l with
  | nil => intro c h; simp [List.dropWhile] at h
  | cons a t ih =>
    intro c h
    rw [List.dropWhile_cons] at h
    by_cases hp : p a
    · rw [if_pos hp] at h; exact ih h
    · rw [if_neg hp] at h
      simp only [List.head?_cons, Option.some.injEq] at h
      rw [← h]
      exact Bool.eq_false_iff.mpr hp

theorem getLast?_dropWhile {p : Char → Bool} :
    ∀ (l : List Char), l.dropWhile p ≠ [] → (l.dropWhile p).getLast? = l.getLast? := by
  intro l
  induction l with
  | nil => intro h; simp [List.dropWhile] at h
  | cons a t ih =>
    intro h
    rw [List.dropWhile_cons] at h ⊢
    by_cases hp : p a
    · rw [if_pos hp] at h ⊢
      rw [ih h]
      have ht : t ≠ [] := by
        intro he; rw [he] at h; simp [List.dropWhile] at h
      cases t with
      | nil => exact absurd rfl ht
      | cons b u => rw [List.getLast?_cons_cons]
    · rw [if_neg hp]

theorem getLast?_append_right : ∀ (l₁ l₂ : List Char), l₂ ≠ [] →
    (l₁ ++ l₂).getLast? = l₂.getLast? := by
  intro l₁ l₂ h
  induction l₁ with
  | nil => rfl
  | cons a t ih =>
    rw [List.cons_append]
    have h2 : (a :: (t ++ l₂)).getLast? = (t ++ l₂).getLast? := by
      cases htl : t ++ l₂ with
      | nil =>
        rcases List.append_eq_nil.mp htl with ⟨_, h3⟩
        exact absurd h3 h
      | cons b u => rw [List.getLast?_cons_cons]
    rw [h2, ih]

theorem trimJS_eq_self {s : List Char}
    (h1 : ∀ c, s.head? = some c → isWs c = false)
    (h2 : ∀ c, s.getLast? = some c → isWs c = false) : trimJS s = s := by
  unfold trimJS
  have e1 : s.dropWhile isWs = s := by
    cases s with
    | nil => rfl
    | cons a l => rw [List.dropWhile_cons, h1 a rfl]; simp
  rw [e1]
  have e2 : s.reverse.dropWhile isWs = s.reverse := by
    cases hr : s.reverse with
    | nil => rfl
    | cons a l =>
      have ha : s.getLast? = some a := by
        rw [← List.head?_reverse, hr, List.head?_cons]
      rw [List.dropWhile_cons, h2 a ha]; simp
  rw [e2, List.reverse_reverse]

theorem trimJS_head? {s : List Char} {c : Char} (h : (trimJS s).head? = some c) :
    isWs c = false := by
  unfold trimJS at h
  rw [List.head?_reverse] at h
  have hne : (s.dropWhile isWs).reverse.dropWhile isWs ≠ [] := by
    intro he; rw [he] at h; simp at h
  rw [getLast?_dropWhile _ hne, List.getLast?_reverse] at h
  exact head?_dropWhile_false h

theorem trimJS_getLast? {s : List Char} {c : Char} (h : (trimJS s).getLast? = some c) :
    isWs c = false := by
  unfold trimJS at h
  rw [List.getLast?_reverse] at h
  exact head?_dropWhile_false h

theorem trimJS_idem (s : List Char) : trimJS (trimJS s) = trimJS s :=
  trimJS_eq_self (fun _ h => trimJS_head? h) (fun _ h => trimJS_getLast? h)

/-! ## C9: toggleBookmark -/

theorem toggleBookmark_of_mem {l : List (List Char)} {id : List Char} (h : id ∈ l) :
    toggleBookmark id l = l.filter (fun x => x ≠ id) := by
  unfold toggleBookmark; rw [if_pos h]

theorem toggleBookmark_of_not_mem {l : List (List Char)} {id : List Char} (h : id ∉ l) :
    toggleBookmark id l = l ++ [id] := by
  unfold toggleBookmark; rw [if_neg h]

/-- C9: `toggleBookmark` removes every occurrence of a present id and
appends an absent id at the end; applying it twice with the same id
restores the original membership; and the sublist of all other ids
(hence their membership and relative order) is never changed. -/
theorem toggleBookmark_spec (l : List (List Char)) (id : List Char) :
    (id ∈ l → toggleBookmark id l = l.filter (fun x => x ≠ id))
  ∧ (id ∉ l → toggleBookmark id l = l ++ [id])
  ∧ (∀ x, x ∈ toggleBookmark id (toggleBookmark id l) ↔ x ∈ l)
  ∧ (toggleBookmark id l).filter (fun x => x ≠ id) = l.filter (fun x => x ≠ id) := by
  by_cases h : id ∈ l
  · refine ⟨fun _ => toggleBookmark_of_mem h, fun hn => absurd h hn, ?_, ?_⟩
    · rw [toggleBookmark_of_mem h]
      have hnm : id ∉ l.filter (fun x => x ≠ id) := by simp [List.mem_filter]
      rw [toggleBookmark_of_not_mem hnm]
      intro x
      simp only [List.mem_append, List.mem_filter, List.mem_singleton]
      constructor
      · rintro (⟨hx, _⟩ | rfl)
        · exact hx
        · exact h
      · intro hx
        by_cases hxi : x = id
        · exact Or.inr hxi
        · exact Or.inl ⟨hx, by simp [hxi]⟩
    · rw [toggleBookmark_of_mem h, List.filter_filter]
      simp
  · refine ⟨fun hp => absurd hp h, fun _ => toggleBookmark_of_not_mem h, ?_, ?_⟩
    · rw [toggleBookmark_of_not_mem h]
      have hm : id ∈ l ++ [id] := by simp
      rw [toggleBookmark_of_mem hm, List.filter_append]
      intro x
      constructor
      · intro hx
        rcases List.mem_append.mp hx with h1 | h1
        · exact (List.mem_filter.mp h1).1
        · simp [List.mem_filter] at h1
      · intro hx
        refine List.mem_append.mpr (Or.inl (List.mem_filter.mpr ⟨hx, ?_⟩))
        simp only [ne_eq, decide_eq_true_eq]
        intro he
        exact h (he ▸ hx)
    · rw [toggleBookmark_of_not_mem h, List.filter_append]
      simp

theorem c9_witness :
    toggleBookmark ("a".data) ["a".data, "b".data] = ["b".data]
  ∧ toggleBookmark ("c".data) ["b".data] = ["b".data, "c".data]
  ∧ (∀ x, x ∈ toggleBookmark ("a".data) (toggleBookmark ("a".data) ["a".data, "b".data])
        ↔ x ∈ ["a".data, "b".data]) := by
  refine ⟨?_, ?_, (toggleBookmark_spec ["a".data, "b".data] ("a".data)).2.2.1⟩
  · rw [(toggleBookmark_spec ["a".data, "b".data] ("a".data)).1 (by decide)]; decide
  · rw [(toggleBookmark_spec ["b".data] ("c".data)).2.1 (by decide)]
    rfl

/-! ## C10: addNote -/

/-- C10: `addNote` creates a note exactly when both the trimmed title and
the trimmed content are non-empty; when it does not, the list is
unchanged; when it does, the note is prepended, the section defaults to
`"General"` exactly when the form section is the empty string, and the
tags are the comma-split, trimmed, non-empty tag strings (each stored tag
is non-empty and already trimmed). -/
theorem addNote_spec (nowId : List Char) (now : Nat) (n : NewNoteForm)
    (notes : List Note) :
    (trimJS n.title = [] ∨ trimJS n.content = [] → addNote nowId now n notes = notes)
  ∧ (trimJS n.title ≠ [] → trimJS n.content ≠ [] →
      addNote nowId now n notes =
        { id := nowId
          title := n.title
          content := n.content
          sectionName := if n.sectionName.isEmpty then "General".data else n.sectionName
          tags := parseTags n.tags
          createdAt := now
          updatedAt := now } :: notes)
  ∧ (∀ t ∈ parseTags n.tags, t ≠ [] ∧ trimJS t = t) := by
  refine ⟨?_, ?_, ?_⟩
  · intro h
    unfold addNote
    rcases h with h | h <;> simp [h]
  · intro h1 h2
    unfold addNote
    rw [if_pos]
    simp [List.isEmpty_iff, h1, h2]
  · intro t ht
    unfold parseTags at ht
    rw [List.mem_filter] at ht
    obtain ⟨hmem, hne⟩ := ht
    rw [List.mem_map] at hmem
    obtain ⟨y, _, rfl⟩ := hmem
    refine ⟨fun he => ?_, trimJS_idem y⟩
    rw [he] at hne
    simp at hne

theorem c10_witness :
    addNote ("17".data) 5 ⟨"t".data, "c".data, [], " x, ,y".data⟩ []
      = [⟨"17".data, "t".data, "c".data, "General".data, ["x".data, "y".data], 5, 5⟩]
  ∧ addNote ("17".data) 5 ⟨" ".data, "c".data, [], []⟩ [] = [] := by
  constructor
  · rw [(addNote_spec ("17".data) 5 ⟨"t".data, "c".data, [], " x, ,y".data⟩ []).2.1
      (by decide) (by decide)]
    decide
  · exact (addNote_spec ("17".data) 5 ⟨" ".data, "c".data, [], []⟩ []).1 (Or.inl (by decide))

/-! ## C8: loadMarkdownContent fallback -/

/-- C8: for every content id with no entry in the content map,
`loadMarkdownContent` returns the placeholder document — title
`"Document Not Found"`, empty section list, and explanatory content that
names the requested id — instead of propagating the not-found error (the
embedding is total; the source throw is caught by the surrounding
`try`/`catch`). -/
theorem loadMarkdownContent_notFound (contentMap : List Char → Option (List Char))
    (contentId : List Char) (h : contentMap contentId = none) :
    loadMarkdownContent contentMap contentId
      = { title := "Document Not Found".data
          content := "# Document Not Found\n\nThe requested document \"".data
            ++ contentId ++ "\" could not be loaded.".data
          sections := ([] : List DocumentSection) } := by
  unfold loadMarkdownContent
  rw [h]
  rfl

theorem c8_witness :
    loadMarkdownContent (fun _ => none) ("missing-doc".data)
      = { title := "Document Not Found".data
          content := "# Document Not Found\n\nThe requested document \"".data
            ++ "missing-doc".data ++ "\" could not be loaded.".data
          sections := ([] : List DocumentSection) } :=
  loadMarkdownContent_notFound (fun _ => none) ("missing-doc".data) rfl

/-! ## C5: search guards -/

theorem searchGo_nil_of_no_match (q : List Char) :
    ∀ (lines : List (List Char)) (idx : Nat) (cur : List Char × List Char),
    (∀ l ∈ lines, containsSub (lowerL l) (lowerL q) = false) →
    searchGo q lines idx cur = [] := by
  intro lines
  induction lines with
  | nil => intro idx cur _; rfl
  | cons l ls ih =>
    intro idx cur h
    have hl := h l (List.mem_cons_self ..)
    have hls : ∀ x ∈ ls, containsSub (lowerL x) (lowerL q) = false :=
      fun x hx => h x (List.mem_cons_of_mem _ hx)
    have hsn : snippetOfLine q l = none := by
      unfold snippetOfLine
      unfold containsSub at hl
      cases hio : indexOfSub (lowerL l) (lowerL q) with
      | some v => rw [hio] at hl; simp at hl
      | none => rfl
    unfold searchGo
    cases hm : searchHeaderMatch l with
    | some ti => exact ih _ _ hls
    | none => rw [hsn]; exact ih _ _ hls

/-- C5: the empty query returns zero results, a query contained
(case-insensitively) in no line of the document returns zero results, and
the result list never exceeds 20 entries. -/
theorem searchResults_guards (content q : List Char) :
    searchResults content [] = []
  ∧ ((∀ l ∈ splitLines content, containsSub (lowerL l) (lowerL q) = false) →
      searchResults content q = [])
  ∧ (searchResults content q).length ≤ 20 := by
  refine ⟨rfl, ?_, ?_⟩
  · intro h
    unfold searchResults
    by_cases he : (trimJS q).isEmpty
    · rw [if_pos he]
    · rw [if_neg he, searchGo_nil_of_no_match q _ _ _ h]
      rfl
  · unfold searchResults
    by_cases he : (trimJS q).isEmpty
    · rw [if_pos he]; simp
    · rw [if_neg he]
      exact List.length_take_le ..

theorem c5_witness :
    searchResults ("only line".data) [] = []
  ∧ searchResults ("only line".data) ("zebra".data) = []
  ∧ (searchResults ("only line".data) ("zebra".data)).length ≤ 20 := by
  obtain ⟨h1, h2, h3⟩ := searchResults_guards ("only line".data) ("zebra".data)
  exact ⟨h1, h2 (by decide), h3⟩

/-! ## C7: concrete search scenario -/

/-- C7: on the document `"# Doc\n\n## Intro \x7b#intro\x7d\nHello world\n\n## Next\nBye"`
the query `"hello"` returns exactly one result, with section id `intro`,
1-based line number 4, and a snippet whose `Hello` is wrapped in the
highlight marker; the heading lines emit no result and only move the
section cursor. -/
theorem search_scenario_hello :
    searchResults ("# Doc\n\n## Intro \x7b#intro\x7d\nHello world\n\n## Next\nBye".data)
      ("hello".data)
      = [⟨"intro".data, "Intro".data, "<mark>Hello</mark> world".data, 4⟩] := by
  decide

/-! ## C2 (amended): line emission and verbatim code buffering -/

/-- C2 (amended): from the normal state, a line that does not open a
fence and has non-empty trimmed content emits at least one block, unless
it starts with `- **` and fails the definition-item pattern (that case is
the counterexample `renderer_drops_line`); inside a code fence a
non-fence line is appended verbatim, plus a newline, to the pending code
buffer, whatever it looks like. -/
theorem parseMarkdown_line_emits (line : List Char) (st : PState) :
    (st.inCodeBlock = false → startsWithL ("```".data) line = false →
      trimJS line ≠ [] →
      ¬(startsWithL ("- **".data) line = true ∧ defMatch line = none) →
      (step st line).2 ≠ [])
  ∧ (st.inCodeBlock = true → startsWithL ("```".data) line = false →
      step st line = (⟨true, st.codeBlockLanguage,
        st.currentCodeBlock ++ line ++ ['\n']⟩, [])) := by
  constructor
  · intro hst hf hne hdef
    have hs : step st line = (st, classify line) := by
      unfold step
      rw [hf, hst]
      simp
    rw [hs]
    show classify line ≠ []
    unfold classify
    split_ifs with h1 h2 h3 h4 h5 h6 h7
    · simp
    · simp
    · simp
    · cases hd : defMatch line with
      | some td => simp
      | none => exact absurd ⟨h4, hd⟩ hdef
    · simp
    · simp
    · simp
    · simp
  · intro hst hf
    unfold step
    rw [hf, hst]
    simp

theorem c2_witness :
    (step ⟨false, [], []⟩ ("hello".data)).2 ≠ []
  ∧ step ⟨true, "js".data, []⟩ ("# hi".data)
      = (⟨true, "js".data, "# hi\n".data⟩, []) := by
  constructor
  · exact (parseMarkdown_line_emits ("hello".data) ⟨false, [], []⟩).1 rfl (by decide)
      (by decide) (by decide)
  · exact (parseMarkdown_line_emits ("# hi".data) ⟨true, "js".data, []⟩).2 rfl (by decide)

/-! ## C3: fenced code blocks -/

theorem parseLines_inCode (lang : List Char) :
    ∀ (interior : List (List Char)) (buf : List Char) (restLines : List (List Char)),
    (∀ l ∈ interior, startsWithL ("```".data) l = false) →
    parseLines ⟨true, lang, buf⟩ (interior ++ "```".data :: restLines)
      = Block.code lang (buf ++ codeJoin interior) :: parseLines ⟨false, [], []⟩ restLines := by
  intro interior
  induction interior with
  | nil =>
    intro buf restLines _
    have e2 : parseLines ⟨true, lang, buf⟩ ([] ++ "```".data :: restLines)
        = [Block.code lang buf] ++ parseLines ⟨false, [], []⟩ restLines := rfl
    rw [e2]
    simp [codeJoin]
  | cons l interior ih =>
    intro buf restLines h
    have hl : startsWithL ("```".data) l = false := h l (List.mem_cons_self ..)
    have hs : step ⟨true, lang, buf⟩ l = (⟨true, lang, buf ++ l ++ ['\n']⟩, []) := by
      unfold step
      rw [hl]
      simp
    have e2 : parseLines ⟨true, lang, buf⟩ ((l :: interior) ++ "```".data :: restLines)
        = (step ⟨true, lang, buf⟩ l).2
          ++ parseLines (step ⟨true, lang, buf⟩ l).1 (interior ++ "```".data :: restLines) := rfl
    rw [e2, hs]
    show [] ++ parseLines ⟨true, lang, buf ++ l ++ ['\n']⟩ (interior ++ "```".data :: restLines)
        = Block.code lang (buf ++ codeJoin (l :: interior)) :: parseLines ⟨false, [], []⟩ restLines
    rw [List.nil_append, ih _ _ (fun x hx => h x (List.mem_cons_of_mem _ hx))]
    have e3 : codeJoin (l :: interior) = l ++ '\n' :: codeJoin interior := rfl
    rw [e3]
    simp [List.append_assoc]

/-- C3: any fenced block is emitted as a single code block tagged with
the language captured at the opening delimiter, with every interior line
(none of which opens a fence) accumulated verbatim plus a newline and
never classified as markdown; in particular the three-line input
made of an opening js fence, the line of code, and a closing fence
yields exactly one code block with language js and the code line plus
newline as body — not a paragraph or heading. -/
theorem parseMarkdown_codeBlock (lang : List Char) (interior restLines : List (List Char))
    (lg bf : List Char)
    (h : ∀ l ∈ interior, startsWithL ("```".data) l = false) :
    parseLines ⟨false, lg, bf⟩ (("```".data ++ lang) :: interior ++ "```".data :: restLines)
      = Block.code lang (codeJoin interior) :: parseLines ⟨false, [], []⟩ restLines
  ∧ parseMarkdown ("```js\nfunction f() \x7b return 1; \x7d\n```".data)
      = [Block.code ("js".data) ("function f() \x7b return 1; \x7d\n".data)] := by
  refine ⟨?_, by decide⟩
  have e2 : parseLines ⟨false, lg, bf⟩
        ((("```".data ++ lang) :: interior) ++ "```".data :: restLines)
      = (step ⟨false, lg, bf⟩ ("```".data ++ lang)).2
        ++ parseLines (step ⟨false, lg, bf⟩ ("```".data ++ lang)).1
            (interior ++ "```".data :: restLines) := rfl
  rw [e2]
  have hopen : step ⟨false, lg, bf⟩ ("```".data ++ lang) = (⟨true, lang, []⟩, []) := rfl
  rw [hopen]
  show [] ++ parseLines ⟨true, lang, []⟩ (interior ++ "```".data :: restLines)
      = Block.code lang (codeJoin interior) :: parseLines ⟨false, [], []⟩ restLines
  rw [List.nil_append, parseLines_inCode lang interior [] restLines h]
  simp

theorem c3_witness :
    parseLines ⟨false, [], []⟩
      (("```".data ++ "js".data) :: ["function f() \x7b return 1; \x7d".data]
        ++ "```".data :: [])
      = Block.code ("js".data) (codeJoin ["function f() \x7b return 1; \x7d".data])
          :: parseLines ⟨false, [], []⟩ [] :=
  (parseMarkdown_codeBlock ("js".data) ["function f() \x7b return 1; \x7d".data] []
    [] [] (by decide)).1

/-! ## C1 (amended): the renderer and the search matcher share one derivation -/

/-- C1 (amended): whenever the Search Matcher's level-2-heading regex
matches a line and its cursor derives a (title, id) pair, the Markdown
Line Renderer classifies the same line as a level-2 heading block with
exactly that id (the key of its bookmark toggle) and title, so those two
derivations are one and the same function of the line.  The Section
Extractor's derivation is a different function — see
`slug_disagreement`. -/
theorem heading_id_renderer_search_agree (line t i : List Char)
    (h : searchHeaderMatch line = some (t, i)) :
    classify line = [Block.h2 i t] := by
  unfold searchHeaderMatch at h
  split at h
  next rest =>
    unfold classify
    rw [show startsWithL ("# ".data) ('#' :: '#' :: ' ' :: rest) = false from rfl]
    rw [show startsWithL ("## ".data) ('#' :: '#' :: ' ' :: rest) = true from rfl]
    simp only [Bool.false_eq_true, if_false, if_true]
    unfold rendererH2
    rw [show ('#' :: '#' :: ' ' :: rest).drop 3 = rest from rfl]
    split at h
    next t2 i2 heq =>
      simp only [Option.some.injEq, Prod.mk.injEq] at h
      obtain ⟨rfl, rfl⟩ := h
      rfl
    next t2 heq =>
      simp only [Option.some.injEq, Prod.mk.injEq] at h
      obtain ⟨rfl, rfl⟩ := h
      rfl
    next heq => simp at h
  next => simp at h

theorem c1_witness :
    classify ("## Hello World".data)
      = [Block.h2 ("hello-world".data) ("Hello World".data)] :=
  heading_id_renderer_search_agree ("## Hello World".data) ("Hello World".data)
    ("hello-world".data) (by decide)

/-! ## C4 (amended): the snippet pipeline refines the spec description -/

theorem mem_lower_dot {s q : List Char} (h : lowerL s = lowerL q) (hd : '.' ∈ s) :
    ∃ c ∈ q, Char.toLower c = '.' := by
  have h1 : Char.toLower '.' ∈ lowerL s := List.mem_map_of_mem _ hd
  rw [h] at h1
  have e : Char.toLower '.' = '.' := by decide
  rw [e] at h1
  unfold lowerL at h1
  rcases List.mem_map.mp h1 with ⟨c, hc, hce⟩
  exact ⟨c, hc, hce⟩

theorem highlightGo_fuel (q : List Char) :
    ∀ (f₁ : Nat) (s : List Char) (f₂ : Nat), s.length ≤ f₁ → s.length ≤ f₂ →
      highlightGo q f₁ s = highlightGo q f₂ s := by
  intro f₁
  induction f₁ with
  | zero =>
    intro s f₂ h1 _
    have hs : s = [] := List.length_eq_zero.mp (Nat.le_zero.mp h1)
    subst hs
    cases f₂ <;> rfl
  | succ f ih =>
    intro s f₂ h1 h2
    cases s with
    | nil => cases f₂ <;> rfl
    | cons c cs =>
      cases f₂ with
      | zero => simp at h2
      | succ g =>
        simp only [highlightGo]
        by_cases hc : q ≠ [] ∧ lowerL ((c :: cs).take q.length) = lowerL q
        · rw [if_pos hc, if_pos hc]
          have hq1 : 1 ≤ q.length := List.length_pos.mpr hc.1
          have hd1 : ((c :: cs).drop q.length).length ≤ f := by
            rw [List.length_drop]
            simp only [List.length_cons] at h1 ⊢
            omega
          have hd2 : ((c :: cs).drop q.length).length ≤ g := by
            rw [List.length_drop]
            simp only [List.length_cons] at h2 ⊢
            omega
          rw [ih _ g hd1 hd2]
        · rw [if_neg hc, if_neg hc]
          have e1 : cs.length ≤ f := by simp only [List.length_cons] at h1; omega
          have e2 : cs.length ≤ g := by simp only [List.length_cons] at h2; omega
          rw [ih cs g e1 e2]

theorem highlight_cons (q : List Char) (c : Char) (cs : List Char) :
    highlight q (c :: cs) =
      if q ≠ [] ∧ lowerL ((c :: cs).take q.length) = lowerL q then
        "<mark>".data ++ (c :: cs).take q.length ++ "</mark>".data
          ++ highlight q ((c :: cs).drop q.length)
      else c :: highlight q cs := by
  unfold highlight
  simp only [List.length_cons, highlightGo]
  by_cases hc : q ≠ [] ∧ lowerL ((c :: cs).take q.length) = lowerL q
  · rw [if_pos hc, if_pos hc]
    have hq1 : 1 ≤ q.length := List.length_pos.mpr hc.1
    rw [highlightGo_fuel q cs.length ((c :: cs).drop q.length)
      ((c :: cs).drop q.length).length
      (by rw [List.length_drop]; simp only [List.length_cons]; omega) (le_refl _)]
  · rw [if_neg hc, if_neg hc]

theorem highlight_dot_cons {q : List Char} (_hq : q ≠ [])
    (hd : ∀ c ∈ q, Char.toLower c ≠ '.') (s : List Char) :
    highlight q ('.' :: s) = '.' :: highlight q s := by
  rw [highlight_cons, if_neg]
  rintro ⟨h1, h2⟩
  have hq1 : 1 ≤ q.length := List.length_pos.mpr h1
  have hmem : '.' ∈ ('.' :: s).take q.length := by
    cases hql : q.length with
    | zero => omega
    | succ m => simp [List.take_succ_cons]
  rcases mem_lower_dot h2 hmem with ⟨c, hc, hce⟩
  exact hd c hc hce

theorem highlight_triple_dot {q : List Char} (hq : q ≠ [])
    (hd : ∀ c ∈ q, Char.toLower c ≠ '.') (s : List Char) :
    highlight q (['.', '.', '.'] ++ s) = ['.', '.', '.'] ++ highlight q s := by
  show highlight q ('.' :: '.' :: '.' :: s) = _
  rw [highlight_dot_cons hq hd, highlight_dot_cons hq hd, highlight_dot_cons hq hd]
  rfl

theorem highlight_append_dots {q : List Char} (hq : q ≠ [])
    (hd : ∀ c ∈ q, Char.toLower c ≠ '.') :
    ∀ (n : Nat) (w : List Char), w.length ≤ n →
      highlight q (w ++ ['.', '.', '.']) = highlight q w ++ ['.', '.', '.'] := by
  intro n
  induction n with
  | zero =>
    intro w hw
    have hwn : w = [] := List.length_eq_zero.mp (Nat.le_zero.mp hw)
    subst hwn
    have h3 := highlight_triple_dot hq hd ([] : List Char)
    rw [List.append_nil] at h3
    rw [List.nil_append, h3]
    rfl
  | succ n ih =>
    intro w hw
    cases w with
    | nil => exact ih [] (by simp)
    | cons c cs =>
      have hcc : (c :: cs) ++ ['.', '.', '.'] = c :: (cs ++ ['.', '.', '.']) := rfl
      rw [hcc, highlight_cons, highlight_cons]
      by_cases hlen : q.length ≤ (c :: cs).length
      · have htake : (c :: (cs ++ ['.', '.', '.'])).take q.length = (c :: cs).take q.length := by
          rw [← hcc, List.take_append_eq_append_take, Nat.sub_eq_zero_of_le hlen]
          simp
        rw [htake]
        by_cases hc : q ≠ [] ∧ lowerL ((c :: cs).take q.length) = lowerL q
        · rw [if_pos hc, if_pos hc]
          have hdrop : (c :: (cs ++ ['.', '.', '.'])).drop q.length
              = (c :: cs).drop q.length ++ ['.', '.', '.'] := by
            rw [← hcc, List.drop_append_eq_append_drop, Nat.sub_eq_zero_of_le hlen]
            simp
          rw [hdrop]
          have hlt : ((c :: cs).drop q.length).length ≤ n := by
            rw [List.length_drop]
            have : 1 ≤ q.length := List.length_pos.mpr hc.1
            simp only [List.length_cons] at hw ⊢
            omega
          rw [ih _ hlt]
          simp [List.append_assoc]
        · rw [if_neg hc, if_neg hc]
          have hcn : cs.length ≤ n := by simp only [List.length_cons] at hw; omega
          rw [ih cs hcn]
          rfl
      · push_neg at hlen
        have hc2 : ¬(q ≠ [] ∧ lowerL ((c :: cs).take q.length) = lowerL q) := by
          rintro ⟨h1, h2⟩
          have := congrArg List.length h2
          simp only [lowerL, List.length_map, List.length_take] at this
          omega
        rw [if_neg hc2]
        have hc1 : ¬(q ≠ [] ∧ lowerL ((c :: (cs ++ ['.', '.', '.'])).take q.length) = lowerL q) := by
          rintro ⟨h1, h2⟩
          have hmem : '.' ∈ (c :: (cs ++ ['.', '.', '.'])).take q.length := by
            rw [← hcc, List.take_append_eq_append_take]
            refine List.mem_append.mpr (Or.inr ?_)
            cases hk : q.length - (c :: cs).length with
            | zero => omega
            | succ m => simp [List.take_succ_cons]
          rcases mem_lower_dot h2 hmem with ⟨cc, hcm, hce⟩
          exact hd cc hcm hce
        rw [if_neg hc1]
        have hcn : cs.length ≤ n := by simp only [List.length_cons] at hw; omega
        rw [ih cs hcn]
        rfl

theorem indexOfFrom_spec (needle : List Char) :
    ∀ (s : List Char) (i j : Nat), indexOfFrom needle i s = some j →
      i ≤ j ∧ (s.drop (j - i)).take needle.length = needle
        ∧ ∀ k < j - i, ¬ (s.drop k).take needle.length = needle := by
  intro s
  induction s with
  | nil =>
    intro i j h
    unfold indexOfFrom at h
    by_cases hn : needle.isEmpty
    · rw [if_pos hn] at h
      injection h with h2
      subst h2
      have hne : needle = [] := List.isEmpty_iff.mp hn
      subst hne
      exact ⟨le_refl _, by simp, by omega⟩
    · rw [if_neg hn] at h
      exact absurd h (by simp)
  | cons c cs ih =>
    intro i j h
    unfold indexOfFrom at h
    by_cases ht : ((c :: cs).take needle.length == needle) = true
    · rw [if_pos ht] at h
      injection h with h2
      subst h2
      exact ⟨le_refl _, by simpa using (beq_iff_eq.mp ht), by omega⟩
    · rw [if_neg ht] at h
      obtain ⟨h1, h2, h3⟩ := ih (i + 1) j h
      refine ⟨by omega, ?_, ?_⟩
      · have hji : j - i = (j - (i + 1)) + 1 := by omega
        rw [hji]
        simpa using h2
      · intro k hk
        cases k with
        | zero =>
          simp only [List.drop_zero]
          intro he
          exact absurd (beq_iff_eq.mpr he) ht
        | succ m =>
          have hm : m < j - (i + 1) := by omega
          simpa using h3 m hm

theorem mkSnippet_src_eq_spec (q line : List Char) (qi : Nat) (hq : q ≠ [])
    (hd : ∀ c ∈ q, Char.toLower c ≠ '.') :
    mkSnippetSrc q line qi = mkSnippetSpec q line qi := by
  simp only [mkSnippetSrc, mkSnippetSpec]
  have hws : (if 30 ≤ qi then qi - 30 else 0) = qi - 30 := by
    split_ifs with h
    · rfl
    · omega
  rw [hws, Nat.min_comm (qi + q.length + 30) line.length]
  by_cases h1 : 0 < qi - 30 <;>
    by_cases h2 : min line.length (qi + q.length + 30) < line.length
  · rw [if_pos h1, if_pos h2, if_pos (by omega : qi - 30 ≠ 0), if_pos h2]
    rw [highlight_append_dots hq hd _ _ (le_refl _), highlight_triple_dot hq hd]
  · rw [if_pos h1, if_neg h2, if_pos (by omega : qi - 30 ≠ 0), if_neg h2]
    rw [highlight_triple_dot hq hd]
    simp
  · rw [if_neg h1, if_pos h2, if_neg (by omega : ¬ qi - 30 ≠ 0), if_pos h2]
    rw [highlight_append_dots hq hd _ _ (le_refl _)]
    simp
  · rw [if_neg h1, if_neg h2, if_neg (by omega : ¬ qi - 30 ≠ 0), if_neg h2]
    simp

/-- C4 (amended): for a non-empty query containing no `'.'` (for which the
unescaped regex interpolation is a literal search) that first occurs in
the lowercased line at index `qi`, the source snippet equals the
spec-side snippet: the window of up to 30 characters before and after
the first occurrence, clamped to the line, with an ellipsis prefix and
suffix exactly when clamped, and with the occurrences found by a
left-to-right non-overlapping case-insensitive scan of the window
wrapped in the highlight marker.  Moreover `qi` really is the first
case-insensitive occurrence, and the emitted result carries the section
cursor and the 1-based line number. -/
theorem searchSnippet_spec (q line : List Char) (qi : Nat)
    (hq : q ≠ []) (hd : ∀ c ∈ q, Char.toLower c ≠ '.')
    (h : indexOfSub (lowerL line) (lowerL q) = some qi) :
    snippetOfLine q line = some (mkSnippetSpec q line qi)
  ∧ ((lowerL line).drop qi).take q.length = lowerL q
  ∧ (∀ k < qi, ¬ ((lowerL line).drop k).take q.length = lowerL q)
  ∧ (∀ (ls : List (List Char)) (idx : Nat) (cur : List Char × List Char),
      searchHeaderMatch line = none →
      searchGo q (line :: ls) idx cur
        = ⟨cur.1, cur.2, mkSnippetSpec q line qi, idx + 1⟩ :: searchGo q ls (idx + 1) cur) := by
  obtain ⟨-, h2, h3⟩ := indexOfFrom_spec (lowerL q) (lowerL line) 0 qi h
  have hlen : (lowerL q).length = q.length := by simp [lowerL]
  have hsn : snippetOfLine q line = some (mkSnippetSrc q line qi) := by
    unfold snippetOfLine
    rw [h]
  refine ⟨?_, ?_, ?_, ?_⟩
  · rw [hsn, mkSnippet_src_eq_spec q line qi hq hd]
  · rw [← hlen]
    simpa using h2
  · intro k hk
    rw [← hlen]
    simpa using h3 k (by omega)
  · intro ls idx cur hh
    have e : searchGo q (line :: ls) idx cur
        = match searchHeaderMatch line with
          | some ti => searchGo q ls (idx + 1) (ti.2, ti.1)
          | none =>
            match snippetOfLine q line with
            | some sn => ⟨cur.1, cur.2, sn, idx + 1⟩ :: searchGo q ls (idx + 1) cur
            | none => searchGo q ls (idx + 1) cur := rfl
    rw [e, hh, hsn, mkSnippet_src_eq_spec q line qi hq hd]

theorem c4_witness :
    snippetOfLine ("hello".data) ("say Hello world".data)
      = some (mkSnippetSpec ("hello".data) ("say Hello world".data) 4) :=
  (searchSnippet_spec ("hello".data) ("say Hello world".data) 4 (by decide)
    (by decide) (by decide)).1

/-! ## C6 (amended): explicit-id round trip between extractor and renderer -/

theorem dropWhile_ne_nil_of_last : ∀ (d : List Char), d ≠ [] →
    (∀ c, d.getLast? = some c → isWs c = false) → d.dropWhile isWs ≠ [] := by
  intro d
  induction d with
  | nil => intro hne _; exact absurd rfl hne
  | cons a t ih =>
    intro _ hlast
    rw [List.dropWhile_cons]
    by_cases ha : isWs a
    · rw [if_pos ha]
      cases t with
      | nil =>
        have h0 := hlast a rfl
        rw [ha] at h0
        exact absurd h0 (by simp)
      | cons b u =>
        exact ih (by simp)
          (fun c hc => hlast c (by rw [List.getLast?_cons_cons]; exact hc))
    · rw [if_neg ha]
      simp

theorem dropWhile_append_ne {d : List Char} (u : List Char)
    (h : d.dropWhile isWs ≠ []) :
    (d ++ u).dropWhile isWs = d.dropWhile isWs ++ u := by
  rw [List.dropWhile_append, if_neg]
  simpa [List.isEmpty_iff] using h

theorem head_dropWhile_mem {p : Char → Bool} :
    ∀ {l : List Char} {c : Char} {r : List Char}, l.dropWhile p = c :: r → c ∈ l := by
  intro l
  induction l with
  | nil => intro c r h; simp [List.dropWhile] at h
  | cons a t ih =>
    intro c r h
    rw [List.dropWhile_cons] at h
    by_cases ha : p a
    · rw [if_pos ha] at h
      exact List.mem_cons_of_mem _ (ih h)
    · rw [if_neg ha] at h
      injection h with h1 _
      rw [← h1]
      exact List.mem_cons_self ..

theorem matchesIdSuffix_append_false {d : List Char} (u : List Char) (hne : d ≠ [])
    (hbrace : '\x7b' ∉ d)
    (hlast : ∀ c, d.getLast? = some c → isWs c = false) :
    matchesIdSuffix (d ++ u) = false := by
  unfold matchesIdSuffix
  have h1 := dropWhile_ne_nil_of_last d hne hlast
  rw [dropWhile_append_ne u h1]
  cases hd2 : d.dropWhile isWs with
  | nil => exact absurd hd2 h1
  | cons e r =>
    have he : e ∈ d := head_dropWhile_mem hd2
    have hne2 : e ≠ '\x7b' := fun hh => hbrace (hh ▸ he)
    rw [List.cons_append]
    split
    next rest heq =>
      injection heq with he1 _
      exact absurd he1 hne2
    next => rfl

theorem suffixIdMatch_append_none {d : List Char} (u : List Char) (hne : d ≠ [])
    (hbrace : '\x7b' ∉ d)
    (hlast : ∀ c, d.getLast? = some c → isWs c = false) :
    suffixIdMatch (d ++ u) = none := by
  unfold suffixIdMatch
  by_cases hw : ((d ++ u).takeWhile isWs).isEmpty
  · rw [if_pos hw]
  · rw [if_neg hw]
    have h1 := dropWhile_ne_nil_of_last d hne hlast
    rw [dropWhile_append_ne u h1]
    cases hd2 : d.dropWhile isWs with
    | nil => exact absurd hd2 h1
    | cons e r =>
      have he : e ∈ d := head_dropWhile_mem hd2
      have hne2 : e ≠ '\x7b' := fun hh => hbrace (hh ▸ he)
      rw [List.cons_append]
      split
      next rest heq =>
        injection heq with he1 _
        exact absurd he1 hne2
      next => rfl

theorem stripIdSuffix_append (u : List Char) :
    ∀ (d : List Char), '\x7b' ∉ d →
    (∀ c, d.getLast? = some c → isWs c = false) →
    stripIdSuffix (d ++ u) = d ++ stripIdSuffix u := by
  intro d
  induction d with
  | nil => intro _ _; rfl
  | cons a t ih =>
    intro hbrace hlast
    rw [List.cons_append]
    have hm : matchesIdSuffix (a :: (t ++ u)) = false :=
      matchesIdSuffix_append_false u (by simp) hbrace hlast
    have e : stripIdSuffix (a :: (t ++ u))
        = if matchesIdSuffix (a :: (t ++ u)) then [] else a :: stripIdSuffix (t ++ u) := rfl
    rw [e, hm]
    simp only [Bool.false_eq_true, if_false]
    have hlt : ∀ c, t.getLast? = some c → isWs c = false := by
      intro c hc
      apply hlast
      cases t with
      | nil => simp at hc
      | cons b v => rw [List.getLast?_cons_cons]; exact hc
    rw [ih (fun hm2 => hbrace (List.mem_cons_of_mem _ hm2)) hlt]
    rfl

theorem findId_append (u : List Char) :
    ∀ (pre : List Char), '\x7b' ∉ pre → findId (pre ++ u) = findId u := by
  intro pre
  induction pre with
  | nil => intro _; rfl
  | cons a t ih =>
    intro h
    rw [List.cons_append]
    have ha : a ≠ '\x7b' := fun hh => h (hh ▸ List.mem_cons_self ..)
    have e : findId (a :: (t ++ u))
        = if a = '\x7b' then
            (match t ++ u with
             | '#' :: rest =>
               let grp := rest.takeWhile (fun d => d ≠ '\x7d')
               if 1 ≤ grp.length ∧ grp.length < rest.length then some grp
               else findId (t ++ u)
             | _ => findId (t ++ u))
          else findId (t ++ u) := rfl
    rw [e, if_neg ha]
    exact ih (fun hm => h (List.mem_cons_of_mem _ hm))

theorem takeWhile_ne_append {I : List Char} (h : '\x7d' ∉ I) :
    (I ++ ['\x7d']).takeWhile (fun d => d ≠ '\x7d') = I := by
  rw [List.takeWhile_append_of_pos]
  · simp
  · intro a ha
    simp only [ne_eq, decide_eq_true_eq]
    exact fun he => h (he ▸ ha)

theorem suffixIdMatch_target {I : List Char} (hI0 : I ≠ []) :
    suffixIdMatch (' ' :: '\x7b' :: '#' :: (I ++ ['\x7d'])) = some I := by
  unfold suffixIdMatch
  have hne : ¬ ((' ' :: '\x7b' :: '#' :: (I ++ ['\x7d'])).takeWhile isWs).isEmpty = true := by
    rw [show (' ' :: '\x7b' :: '#' :: (I ++ ['\x7d'])).takeWhile isWs = [' '] from rfl]
    simp
  rw [if_neg hne]
  rw [show (' ' :: '\x7b' :: '#' :: (I ++ ['\x7d'])).dropWhile isWs
      = '\x7b' :: '#' :: (I ++ ['\x7d']) from rfl]
  have hg : (I ++ ['\x7d']).getLast? = some '\x7d' := List.getLast?_concat _
  have hl : 2 ≤ (I ++ ['\x7d']).length := by
    rw [List.length_append]
    have := List.length_pos.mpr hI0
    simp only [List.length_singleton]
    omega
  show (if (I ++ ['\x7d']).getLast? = some '\x7d' ∧ 2 ≤ (I ++ ['\x7d']).length
        then some (I ++ ['\x7d']).dropLast else none) = some I
  rw [if_pos ⟨hg, hl⟩, List.dropLast_concat]

theorem h2Split_run {I : List Char} (hI0 : I ≠ []) :
    ∀ (d : List Char) (accRev : List Char), d ≠ [] → '\x7b' ∉ d →
    (∀ c, d.getLast? = some c → isWs c = false) →
    h2Split accRev (d ++ (' ' :: '\x7b' :: '#' :: (I ++ ['\x7d'])))
      = some (accRev.reverse ++ d, some I) := by
  intro d
  induction d with
  | nil => intro accRev hne _ _; exact absurd rfl hne
  | cons a t ih =>
    intro accRev _ hbrace hlast
    rw [List.cons_append]
    cases t with
    | nil =>
      have e : h2Split accRev (a :: ([] ++ (' ' :: '\x7b' :: '#' :: (I ++ ['\x7d']))))
          = match suffixIdMatch (' ' :: '\x7b' :: '#' :: (I ++ ['\x7d'])) with
            | some i => some ((a :: accRev).reverse, some i)
            | none => h2Split (a :: accRev) (' ' :: '\x7b' :: '#' :: (I ++ ['\x7d'])) := rfl
      rw [e, suffixIdMatch_target hI0]
      simp [List.reverse_cons]
    | cons b v =>
      have hsuf : suffixIdMatch ((b :: v) ++ (' ' :: '\x7b' :: '#' :: (I ++ ['\x7d']))) = none :=
        suffixIdMatch_append_none _ (by simp)
          (fun hm => hbrace (List.mem_cons_of_mem _ hm))
          (fun c hc => hlast c (by rw [List.getLast?_cons_cons]; exact hc))
      have e : h2Split accRev (a :: ((b :: v) ++ (' ' :: '\x7b' :: '#' :: (I ++ ['\x7d']))))
          = match suffixIdMatch ((b :: v) ++ (' ' :: '\x7b' :: '#' :: (I ++ ['\x7d']))) with
            | some i => some ((a :: accRev).reverse, some i)
            | none => h2Split (a :: accRev)
                ((b :: v) ++ (' ' :: '\x7b' :: '#' :: (I ++ ['\x7d']))) := rfl
      rw [e, hsuf]
      show h2Split (a :: accRev) ((b :: v) ++ (' ' :: '\x7b' :: '#' :: (I ++ ['\x7d'])))
          = some (accRev.reverse ++ (a :: b :: v), some I)
      rw [ih (a :: accRev) (by simp)
        (fun hm => hbrace (List.mem_cons_of_mem _ hm))
        (fun c hc => hlast c (by rw [List.getLast?_cons_cons]; exact hc))]
      simp [List.reverse_cons, List.append_assoc]

/-- C6 (amended): for every heading line `## TITLE \x7b#ID\x7d` where
TITLE is non-empty, contains no braces and neither starts nor ends with
whitespace, and ID is non-empty and contains no `\x7d`, the Section
Extractor returns the section `(ID, TITLE, 2)` and the Markdown Line
Renderer (and the Search Matcher) derive from the same line exactly the
same id ID and title TITLE; `## Title \x7b#custom-id\x7d` is the
witness instance. -/
theorem heading_round_trip (T I : List Char)
    (hT0 : T ≠ []) (hTbl : '\x7b' ∉ T) (hTbr : '\x7d' ∉ T)
    (hTh : isWs (T.head?.getD 'x') = false)
    (hTt : isWs (T.getLast?.getD 'x') = false)
    (hI0 : I ≠ []) (hIr : '\x7d' ∉ I) :
    sectionOfLine (headingLine T I) = some ⟨I, T, 2⟩
  ∧ classify (headingLine T I) = [Block.h2 I T]
  ∧ searchHeaderMatch (headingLine T I) = some (T, I) := by
  obtain ⟨t0, T2, rfl⟩ : ∃ t0 T2, T = t0 :: T2 := by
    cases T with
    | nil => exact absurd rfl hT0
    | cons a b => exact ⟨a, b, rfl⟩
  have hTh2 : isWs t0 = false := hTh
  have hTlast : ∀ c, (t0 :: T2).getLast? = some c → isWs c = false := by
    intro c hc
    have h0 := hTt
    rw [hc] at h0
    exact h0
  -- the search matcher
  have hsearch : searchHeaderMatch (headingLine (t0 :: T2) I) = some (t0 :: T2, I) := by
    have e : searchHeaderMatch (headingLine (t0 :: T2) I)
        = match h2Split [] ((t0 :: T2) ++ (' ' :: '\x7b' :: '#' :: (I ++ ['\x7d']))) with
          | some (t, some i) => some (t, i)
          | some (t, none) => some (t, slugHeading t)
          | none => none := rfl
    rw [e, h2Split_run hI0 (t0 :: T2) [] (by simp) hTbl hTlast]
    rfl
  -- the renderer
  have hrend : rendererH2 (headingLine (t0 :: T2) I) = (t0 :: T2, I) := by
    unfold rendererH2
    rw [show (headingLine (t0 :: T2) I).drop 3
        = (t0 :: T2) ++ (' ' :: '\x7b' :: '#' :: (I ++ ['\x7d'])) from rfl]
    rw [h2Split_run hI0 (t0 :: T2) [] (by simp) hTbl hTlast]
    rfl
  have hclass : classify (headingLine (t0 :: T2) I) = [Block.h2 I (t0 :: T2)] := by
    unfold classify
    rw [show startsWithL ("# ".data) (headingLine (t0 :: T2) I) = false from rfl]
    rw [show startsWithL ("## ".data) (headingLine (t0 :: T2) I) = true from rfl]
    simp only [Bool.false_eq_true, if_false, if_true, hrend]
  -- the extractor
  have htrim : trimJS (headingLine (t0 :: T2) I) = headingLine (t0 :: T2) I := by
    apply trimJS_eq_self
    · intro c hc
      rw [show (headingLine (t0 :: T2) I).head? = some '#' from rfl] at hc
      injection hc with h1
      rw [← h1]
      decide
    · intro c hc
      have hg : (headingLine (t0 :: T2) I).getLast? = some '\x7d' := by
        have e1 : headingLine (t0 :: T2) I
            = ('#' :: '#' :: ' ' :: t0 :: T2)
              ++ (' ' :: '\x7b' :: '#' :: (I ++ ['\x7d'])) := by
          show '#' :: '#' :: ' ' :: ((t0 :: T2) ++ _) = _
          simp
        rw [e1, getLast?_append_right _ _ (by simp)]
        have e2 : (' ' :: '\x7b' :: '#' :: (I ++ ['\x7d']))
            = (' ' :: '\x7b' :: '#' :: I) ++ ['\x7d'] := by simp
        rw [e2, List.getLast?_concat]
      rw [hg] at hc
      injection hc with h1
      rw [← h1]
      decide
  have hdw0 : ((t0 :: T2) ++ (' ' :: '\x7b' :: '#' :: (I ++ ['\x7d']))).dropWhile isWs
      = (t0 :: T2) ++ (' ' :: '\x7b' :: '#' :: (I ++ ['\x7d'])) := by
    rw [List.cons_append, List.dropWhile_cons, hTh2]
    simp
  have hm : matchesIdSuffix (' ' :: '\x7b' :: '#' :: (I ++ ['\x7d'])) = true := by
    unfold matchesIdSuffix
    rw [show (' ' :: '\x7b' :: '#' :: (I ++ ['\x7d'])).dropWhile isWs
        = '\x7b' :: '#' :: (I ++ ['\x7d']) from rfl]
    show ((I ++ ['\x7d']).getLast? == some '\x7d') = true
    rw [List.getLast?_concat]
    rfl
  have hsu : stripIdSuffix (' ' :: '\x7b' :: '#' :: (I ++ ['\x7d'])) = [] := by
    have e : stripIdSuffix (' ' :: '\x7b' :: '#' :: (I ++ ['\x7d']))
        = if matchesIdSuffix (' ' :: '\x7b' :: '#' :: (I ++ ['\x7d'])) then []
          else ' ' :: stripIdSuffix ('\x7b' :: '#' :: (I ++ ['\x7d'])) := rfl
    rw [e, hm]
    simp
  have hfi : findId (headingLine (t0 :: T2) I) = some I := by
    have s1 : findId (headingLine (t0 :: T2) I)
        = findId ((t0 :: T2) ++ (' ' :: '\x7b' :: '#' :: (I ++ ['\x7d']))) :=
      findId_append _ ['#', '#', ' '] (by decide)
    have s2 : findId ((t0 :: T2) ++ (' ' :: '\x7b' :: '#' :: (I ++ ['\x7d'])))
        = findId ('\x7b' :: '#' :: (I ++ ['\x7d'])) := by
      have e1 : (t0 :: T2) ++ (' ' :: '\x7b' :: '#' :: (I ++ ['\x7d']))
          = ((t0 :: T2) ++ [' ']) ++ ('\x7b' :: '#' :: (I ++ ['\x7d'])) := by
        simp
      rw [e1]
      apply findId_append
      intro hmem
      rcases List.mem_append.mp hmem with h | h
      · exact hTbl h
      · rw [List.mem_singleton] at h
        exact absurd h (by decide)
    have s3 : findId ('\x7b' :: '#' :: (I ++ ['\x7d'])) = some I := by
      have e : findId ('\x7b' :: '#' :: (I ++ ['\x7d']))
          = if 1 ≤ ((I ++ ['\x7d']).takeWhile (fun d => d ≠ '\x7d')).length
              ∧ ((I ++ ['\x7d']).takeWhile (fun d => d ≠ '\x7d')).length
                < (I ++ ['\x7d']).length
            then some ((I ++ ['\x7d']).takeWhile (fun d => d ≠ '\x7d'))
            else findId ('#' :: (I ++ ['\x7d'])) := rfl
      rw [e, takeWhile_ne_append hIr]
      rw [if_pos ⟨List.length_pos.mpr hI0, by simp⟩]
    rw [s1, s2, s3]
  have hsec : sectionOfLine (headingLine (t0 :: T2) I) = some ⟨I, t0 :: T2, 2⟩ := by
    simp only [sectionOfLine]
    rw [htrim]
    rw [show startsWithL ['#'] (headingLine (t0 :: T2) I) = true from rfl]
    simp only [if_true]
    rw [show (headingLine (t0 :: T2) I).takeWhile (fun c => c == '#')
        = ['#', '#'] from rfl]
    rw [show (headingLine (t0 :: T2) I).dropWhile (fun c => c == '#')
        = ' ' :: ((t0 :: T2) ++ (' ' :: '\x7b' :: '#' :: (I ++ ['\x7d']))) from rfl]
    rw [show (' ' :: ((t0 :: T2) ++ (' ' :: '\x7b' :: '#' :: (I ++ ['\x7d'])))).dropWhile isWs
        = ((t0 :: T2) ++ (' ' :: '\x7b' :: '#' :: (I ++ ['\x7d']))).dropWhile isWs from rfl]
    rw [hdw0, stripIdSuffix_append _ (t0 :: T2) hTbl hTlast, hsu, List.append_nil]
    rw [hfi]
    rfl
  exact ⟨hsec, hclass, hsearch⟩

theorem c6_witness :
    sectionOfLine (headingLine ("Title".data) ("custom-id".data))
      = some ⟨"custom-id".data, "Title".data, 2⟩
  ∧ classify (headingLine ("Title".data) ("custom-id".data))
      = [Block.h2 ("custom-id".data) ("Title".data)]
  ∧ searchHeaderMatch (headingLine ("Title".data) ("custom-id".data))
      = some ("Title".data, "custom-id".data) :=
  heading_round_trip ("Title".data) ("custom-id".data) (by decide) (by decide)
    (by decide) (by decide) (by decide) (by decide) (by decide)

/-! ## Counterexamples to the claims as stated -/

/-- C1 is refuted at the level-2 heading `"## A.B"` (no explicit id): the
Section Extractor derives the slug `"a-b"` (non-alphanumeric runs become
hyphens) while the Markdown Line Renderer and the Search Matcher both
derive `"a.b"` (only whitespace runs become hyphens). -/
theorem slug_disagreement :
    sectionOfLine ("## A.B".data) = some ⟨"a-b".data, "A.B".data, 2⟩
  ∧ searchHeaderMatch ("## A.B".data) = some ("A.B".data, "a.b".data)
  ∧ classify ("## A.B".data) = [Block.h2 ("a.b".data) ("A.B".data)]
  ∧ ("a-b".data : List Char) ≠ "a.b".data := by
  decide

/-- C2 is refuted: the non-empty line `"- **x"` (outside any code fence)
starts with `- **` but fails the definition-item regex, and the renderer
emits no block at all for it, silently losing its text. -/
theorem renderer_drops_line :
    parseMarkdown ("- **x".data) = [] ∧ trimJS ("- **x".data) ≠ [] := by
  decide

/-- C4 is refuted on line `"aaa"` with query `"aa"`: the 60-character
window is the whole line and contains two (overlapping) occurrences of
the query, but the emitted snippet wraps only the first — one `<mark>`
marker, not one per occurrence — because the replacement scan is
non-overlapping. -/
theorem highlight_misses_overlap :
    snippetOfLine ("aa".data) ("aaa".data) = some ("<mark>aa</mark>a".data)
  ∧ countOcc ("aa".data) ("aaa".data) = 2
  ∧ countOcc ("<mark>".data) ("<mark>aa</mark>a".data) = 1 := by
  decide

/-- C6 is refuted when the explicit ID contains `\x7d`: on
`"## T \x7b#a\x7db\x7d"` the Extractor's `[^}]+` capture truncates the id
to `"a"` while the Renderer's lazy capture anchored at the line end reads
`"a\x7db"`, so the two do not agree. -/
theorem extractor_truncates_id :
    sectionOfLine ("## T \x7b#a\x7db\x7d".data) = some ⟨"a".data, "T".data, 2⟩
  ∧ classify ("## T \x7b#a\x7db\x7d".data) = [Block.h2 ("a\x7db".data) ("T".data)]
  ∧ ("a".data : List Char) ≠ "a\x7db".data := by
  decide

end StudyGuide
